import Mathlib

/-!
Shallow embedding of the phi accrual failure detector (`src/lib.rs`).

Timestamps (`chrono::DateTime<Local>`) are modelled by their millisecond value
as an integer `ℤ`; `a.sub(b).num_milliseconds()` is then `a - b`.  The window
of inter-arrival intervals is a `List ℕ` (the source's `Vec<u64>`): the cast
`num_milliseconds() as u64` reinterprets the signed 64-bit difference modulo
`2^64`, which we model as `((a - b) % 2^64).toNat`.  The `u32` counters `n`
and `window_length` are modelled by `ℕ` (their values stay far below `2^32`
in every scenario treated here, so wrap-around is not modelled).

`Vec::remove(0)` panics on an empty vector, so `Statistics.insert` is
fallible: it returns `none` exactly when the source program would panic.

The floating-point arithmetic of `mean_with_stats`, `variance_and_mean`,
`normal_cdf` and `phi` is modelled exactly: the mean/variance folds over the
window are rational, and the transcendental part (`erf`, `log10`, `sqrt`)
is modelled over `ℝ`, with the value of `phi` living in `EReal` so that the
IEEE behaviours `log10 0 = -∞` and `-(-∞) = +∞` are represented faithfully.
-/

/-- The `Statistics` struct of the source: a bounded window of inter-arrival
intervals (milliseconds, `u64`), the timestamp of the most recent arrival,
the fixed window bound, and the arrival counter `n`. -/
structure Statistics where
  arrival_intervals : List ℕ
  last_arrived_at : ℤ
  window_length : ℕ
  n : ℕ
  deriving Repr, DecidableEq

namespace Statistics

/-- Constructor `Statistics::new`: empty window, `n = 0`; `last_arrived_at` is whatever
`Local::now()` returned at construction time, passed here as `now`. -/
def new (window_length : ℕ) (now : ℤ) : Statistics :=
  { arrival_intervals := []
    last_arrived_at := now
    window_length := window_length
    n := 0 }

/-- The recorded interval: `arrived_at.sub(last).num_milliseconds() as u64`,
i.e. the millisecond difference reinterpreted as an unsigned 64-bit value. -/
def intervalOf (last arrived_at : ℤ) : ℕ :=
  ((arrived_at - last) % (2 ^ 64 : ℤ)).toNat

/-- Operation `Statistics::insert`.  Returns `none` exactly when the source would
panic: `arrival_intervals.remove(0)` on an empty vector. -/
def insert (s : Statistics) (arrived_at : ℤ) : Option Statistics :=
  if s.n = 0 then
    some { s with last_arrived_at := arrived_at, n := s.n + 1 }
  else
    match (if s.n - 1 = s.window_length then
        match s.arrival_intervals with
        | [] => none
        | _ :: rest => some { s with arrival_intervals := rest, n := s.n - 1 }
      else some s) with
    | none => none
    | some s1 =>
      let s2 := if s1.n ≠ 0 then
          { s1 with arrival_intervals :=
              s1.arrival_intervals ++ [intervalOf s.last_arrived_at arrived_at] }
        else s1
      some { s2 with last_arrived_at := arrived_at, n := s2.n + 1 }

/-- A sequence of `insert` calls, failing if any single call panics. -/
def runInserts (s : Statistics) (ts : List ℤ) : Option Statistics :=
  ts.foldlM insert s

end Statistics

/-- Source `mean_with_stats`: folds `mean += v / len` over the window; the empty
window contributes nothing, so no division by zero ever happens. -/
def mean_with_stats (l : List ℕ) : ℚ :=
  l.foldl (fun mean (v : ℕ) => mean + (v : ℚ) / (l.length : ℚ)) 0

/-- Source `variance_and_mean`: computes the mean, then folds
`variance += (v - mu)^2 / len` over the window. -/
def variance_and_mean (l : List ℕ) : ℚ × ℚ :=
  let mu := mean_with_stats l
  (l.foldl (fun variance (v : ℕ) => variance + ((v : ℚ) - mu) * ((v : ℚ) - mu) / (l.length : ℚ)) 0,
    mu)

/-- The suffix of the last `k` elements of a list (all of it when the list is
shorter than `k`). -/
def lastN {α : Type} (k : ℕ) (l : List α) : List α :=
  l.drop (l.length - k)

/-- The sequence of intervals the detector records for the arrivals `ts`,
given that the previous arrival was at `last`. -/
def intervalsFrom (last : ℤ) : List ℤ → List ℕ
  | [] => []
  | t :: ts => Statistics.intervalOf last t :: intervalsFrom t ts

/-- The error function computed by `libm::erf`, modelled exactly:
`erf x = 2/√π · ∫ t in 0..x, exp (-t²)`. -/
noncomputable def erf (x : ℝ) : ℝ :=
  2 / Real.sqrt Real.pi * ∫ t in (0:ℝ)..x, Real.exp (-t ^ 2)

/-- Source `normal_cdf`: a point mass at `mu` when `sigma == 0`,
otherwise the Gaussian CDF via the error function. -/
noncomputable def normal_cdf (t mu sigma : ℝ) : ℝ :=
  if sigma = 0 then
    if t = mu then 1 else 0
  else
    0.5 + 0.5 * erf ((t - mu) / sigma)

/-- The function `libm::log10` on the arguments `phi` feeds it (`1 - F ∈ [0, 1]`),
including the IEEE value `log10 0 = -∞`; the result lives in `EReal`. -/
noncomputable def log10E (x : ℝ) : EReal :=
  if x = 0 then ⊥ else ((Real.logb 10 x : ℝ) : EReal)

/-- Operation `Detector::phi` evaluated against the `Statistics` snapshot `s` at query
time `t`: `sigma = sqrt(variance)`, `elapsed = t - last_arrived_at` in
milliseconds, `F = normal_cdf(elapsed, mu, sigma)`, `phi = -log10(1 - F)`.
(The `RwLock` only serialises access; the computation itself is this.) -/
noncomputable def Detector.phi (s : Statistics) (t : ℤ) : EReal :=
  -(log10E (1 - normal_cdf (((t - s.last_arrived_at : ℤ) : ℝ))
      (((variance_and_mean s.arrival_intervals).2 : ℚ) : ℝ)
      (Real.sqrt (((variance_and_mean s.arrival_intervals).1 : ℚ) : ℝ))))

/-- Modelled from the spec (§4.2): the arithmetic mean `Σ xᵢ / len`, with an
empty window giving `0`. -/
def mean_spec (l : List ℕ) : ℚ :=
  (l.map fun v : ℕ => (v : ℚ)).sum / (l.length : ℚ)

/-- Modelled from the spec (§4.2): population variance
`Σ (xᵢ − mean)² / len`. -/
def variance_spec (l : List ℕ) : ℚ :=
  (l.map fun v : ℕ => ((v : ℚ) - mean_spec l) * ((v : ℚ) - mean_spec l)).sum / (l.length : ℚ)

/-- Modelled from the spec (§4.3 step 4): the Gaussian CDF with a point mass
at `mu` when `sigma = 0`, else `0.5 + 0.5 · erf((t − mu)/sigma)`. -/
noncomputable def normal_cdf_spec (t mu sigma : ℝ) : ℝ :=
  if sigma = 0 then
    if t = mu then 1 else 0
  else
    0.5 + 0.5 * erf ((t - mu) / sigma)

/-- Modelled from the spec (§4.3 steps 1–5): `phi = −log10(1 − F(elapsed))`
with `sigma = sqrt(variance)` and `elapsed = t − last_arrived_at`. -/
noncomputable def phi_spec (s : Statistics) (t : ℤ) : EReal :=
  -(log10E (1 - normal_cdf_spec (((t - s.last_arrived_at : ℤ) : ℝ))
      ((mean_spec s.arrival_intervals : ℚ) : ℝ)
      (Real.sqrt ((variance_spec s.arrival_intervals : ℚ) : ℝ))))

theorem length_lastN {α : Type} (k : ℕ) (l : List α) :
    (lastN k l).length = min k l.length := by
  simp only [lastN, List.length_drop]
  omega

theorem lastN_of_le {α : Type} {k : ℕ} {l : List α} (h : l.length ≤ k) :
    lastN k l = l := by
  simp only [lastN]
  rw [Nat.sub_eq_zero_of_le h, List.drop_zero]

theorem lastN_append_one {α : Type} (k : ℕ) (hk : 1 ≤ k) (X : List α) (d : α) :
    lastN k (X ++ [d]) = X.drop (X.length + 1 - k) ++ [d] := by
  simp only [lastN, List.length_append, List.length_cons, List.length_nil]
  rw [List.drop_append_eq_append_drop]
  have e2 : X.length + (0 + 1) - k - X.length = 0 := by omega
  rw [e2, List.drop_zero]

theorem lastN_append_singleton {α : Type} (k : ℕ) (hk : 1 ≤ k) (D : List α) (d : α) :
    lastN k (lastN k D ++ [d]) = lastN k (D ++ [d]) := by
  by_cases h : D.length ≤ k
  · rw [lastN_of_le h]
  · push_neg at h
    have hlen : (lastN k D).length = k := by rw [length_lastN]; omega
    rw [lastN_append_one k hk (lastN k D) d, lastN_append_one k hk D d, hlen]
    congr 1
    show (lastN k D).drop (k + 1 - k) = D.drop (D.length + 1 - k)
    have e1 : k + 1 - k = 1 := by omega
    rw [e1]
    show (D.drop (D.length - k)).drop 1 = D.drop (D.length + 1 - k)
    rw [List.drop_drop]
    congr 1
    omega

namespace Statistics

theorem insert_no_evict (s : Statistics) (t : ℤ) (hn0 : s.n ≠ 0)
    (hcond : ¬s.n - 1 = s.window_length) :
    s.insert t = some { s with
      arrival_intervals := s.arrival_intervals ++ [intervalOf s.last_arrived_at t]
      last_arrived_at := t
      n := s.n + 1 } := by
  rw [Statistics.insert, if_neg hn0, if_neg hcond]
  simp only [ne_eq, hn0, not_false_eq_true, if_true]

theorem insert_evict (s : Statistics) (t : ℤ) (a : ℕ) (rest : List ℕ) (hn0 : s.n ≠ 0)
    (hcond : s.n - 1 = s.window_length) (hI : s.arrival_intervals = a :: rest)
    (hn1 : s.n ≠ 1) :
    s.insert t = some { s with
      arrival_intervals := rest ++ [intervalOf s.last_arrived_at t]
      last_arrived_at := t
      n := s.n - 1 + 1 } := by
  rw [Statistics.insert, if_neg hn0, if_pos hcond, hI]
  have h1 : ¬s.n - 1 = 0 := by omega
  simp only [ne_eq, h1, not_false_eq_true, if_true]

theorem insert_panics (s : Statistics) (t : ℤ) (hn0 : s.n ≠ 0)
    (hcond : s.n - 1 = s.window_length) (hI : s.arrival_intervals = []) :
    s.insert t = none := by
  rw [Statistics.insert, if_neg hn0, if_pos hcond, hI]

end Statistics

namespace Statistics

/-- One non-bootstrap `insert` on a well-formed state: the new window is the
last `window_length` entries of the old window extended by the new interval,
and `n` stays one above the window size. -/
theorem insert_step (s : Statistics) (t : ℤ)
    (hn : s.n = s.arrival_intervals.length + 1)
    (hlen : s.arrival_intervals.length ≤ s.window_length)
    (hwl : 1 ≤ s.window_length) :
    s.insert t = some
      { arrival_intervals := lastN s.window_length
          (s.arrival_intervals ++ [intervalOf s.last_arrived_at t])
        last_arrived_at := t
        window_length := s.window_length
        n := (lastN s.window_length
          (s.arrival_intervals ++ [intervalOf s.last_arrived_at t])).length + 1 } := by
  have hn0 : s.n ≠ 0 := by omega
  by_cases hfull : s.arrival_intervals.length = s.window_length
  · have hcond : s.n - 1 = s.window_length := by omega
    have hne : s.arrival_intervals ≠ [] := by
      intro h
      rw [h] at hfull
      simp at hfull
      omega
    obtain ⟨a, rest, hI⟩ : ∃ a rest, s.arrival_intervals = a :: rest := by
      cases hI : s.arrival_intervals with
      | nil => exact absurd hI hne
      | cons a rest => exact ⟨a, rest, rfl⟩
    rw [insert_evict s t a rest hn0 hcond hI (by omega)]
    have hdrop : lastN s.window_length
        (s.arrival_intervals ++ [intervalOf s.last_arrived_at t]) =
        rest ++ [intervalOf s.last_arrived_at t] := by
      rw [lastN_append_one s.window_length hwl, hfull]
      have e1 : s.window_length + 1 - s.window_length = 1 := by omega
      rw [e1, hI]
      rfl
    rw [hdrop]
    have hlrest : rest.length = s.window_length - 1 := by
      have h3 := congrArg List.length hI
      simp at h3
      omega
    have hnn : s.n - 1 + 1 = (rest ++ [intervalOf s.last_arrived_at t]).length + 1 := by
      simp [hlrest]
      omega
    rw [hnn]
  · have hcond : ¬s.n - 1 = s.window_length := by omega
    rw [insert_no_evict s t hn0 hcond]
    have hdrop : lastN s.window_length
        (s.arrival_intervals ++ [intervalOf s.last_arrived_at t]) =
        s.arrival_intervals ++ [intervalOf s.last_arrived_at t] := by
      apply lastN_of_le
      simp
      omega
    rw [hdrop]
    have hnn : s.n + 1 =
        (s.arrival_intervals ++ [intervalOf s.last_arrived_at t]).length + 1 := by
      simp
      omega
    rw [hnn]

end Statistics

namespace Statistics

theorem runInserts_cons (s : Statistics) (t : ℤ) (ts : List ℤ) :
    runInserts s (t :: ts) = (s.insert t).bind (fun s1 => runInserts s1 ts) := by
  cases h : s.insert t with
  | none => simp [runInserts, List.foldlM, h, Option.bind]
  | some s1 => simp [runInserts, List.foldlM, h, Option.bind]

/-- Running a sequence of inserts from a well-formed post-bootstrap state:
no insert panics, and the final window is the last `window_length` entries of
the accumulated interval sequence. -/
theorem runInserts_window (wl : ℕ) (hwl : 1 ≤ wl) (ts : List ℤ) :
    ∀ (s : Statistics) (D : List ℕ),
      s.window_length = wl →
      s.n = s.arrival_intervals.length + 1 →
      s.arrival_intervals = lastN wl D →
      ∃ s', runInserts s ts = some s' ∧
        s'.window_length = wl ∧
        s'.n = s'.arrival_intervals.length + 1 ∧
        s'.arrival_intervals = lastN wl (D ++ intervalsFrom s.last_arrived_at ts) ∧
        s'.last_arrived_at = ts.getLastD s.last_arrived_at := by
  induction ts with
  | nil =>
    intro s D hw hn hD
    refine ⟨s, rfl, hw, hn, ?_, rfl⟩
    rw [show intervalsFrom s.last_arrived_at [] = [] from rfl, List.append_nil]
    exact hD
  | cons t ts ih =>
    intro s D hw hn hD
    have hlen : s.arrival_intervals.length ≤ s.window_length := by
      rw [hD, length_lastN, hw]; omega
    have hstep := insert_step s t hn hlen (hw ▸ hwl)
    rw [hw, hD, lastN_append_singleton wl hwl] at hstep
    obtain ⟨s', hrun, hw', hn', hD', hl'⟩ :=
      ih { arrival_intervals := lastN wl (D ++ [intervalOf s.last_arrived_at t])
           last_arrived_at := t
           window_length := wl
           n := (lastN wl (D ++ [intervalOf s.last_arrived_at t])).length + 1 }
        (D ++ [intervalOf s.last_arrived_at t]) rfl rfl rfl
    refine ⟨s', ?_, hw', hn', ?_, ?_⟩
    · rw [runInserts_cons, hstep]
      simp only [Option.bind]
      exact hrun
    · rw [hD']
      simp only [List.append_assoc, List.singleton_append]
      rfl
    · rw [hl', List.getLastD_cons]

theorem foldl_add_map {β : Type} (f : β → ℚ) :
    ∀ (l : List β) (a : ℚ), l.foldl (fun acc v => acc + f v) a = a + (l.map f).sum := by
  intro l
  induction l with
  | nil => simp
  | cons x xs ih =>
    intro a
    simp only [List.foldl_cons, List.map_cons, List.sum_cons, ih]
    ring

theorem sum_map_div (c : ℚ) : ∀ l : List ℚ, (l.map (fun x => x / c)).sum = l.sum / c := by
  intro l
  induction l with
  | nil => simp
  | cons x xs ih => simp [ih, add_div]

theorem mean_with_stats_eq (l : List ℕ) :
    mean_with_stats l = (l.map fun v : ℕ => (v : ℚ)).sum / (l.length : ℚ) := by
  unfold mean_with_stats
  rw [foldl_add_map (fun v : ℕ => (v : ℚ) / (l.length : ℚ)) l 0, zero_add]
  have h : l.map (fun v : ℕ => (v : ℚ) / (l.length : ℚ)) =
      (l.map (fun v : ℕ => (v : ℚ))).map (fun x => x / (l.length : ℚ)) := by
    rw [List.map_map]
    rfl
  rw [h, sum_map_div]

theorem variance_and_mean_snd (l : List ℕ) :
    (variance_and_mean l).2 = mean_with_stats l := rfl

theorem variance_and_mean_fst (l : List ℕ) :
    (variance_and_mean l).1 =
      (l.map fun v : ℕ => ((v : ℚ) - mean_with_stats l) * ((v : ℚ) - mean_with_stats l)).sum /
        (l.length : ℚ) := by
  show l.foldl
      (fun variance (v : ℕ) => variance +
        ((v : ℚ) - mean_with_stats l) * ((v : ℚ) - mean_with_stats l) / (l.length : ℚ)) 0 = _
  rw [foldl_add_map
    (fun v : ℕ => ((v : ℚ) - mean_with_stats l) * ((v : ℚ) - mean_with_stats l) / (l.length : ℚ))
    l 0, zero_add]
  have h : l.map (fun v : ℕ =>
      ((v : ℚ) - mean_with_stats l) * ((v : ℚ) - mean_with_stats l) / (l.length : ℚ)) =
      (l.map (fun v : ℕ => ((v : ℚ) - mean_with_stats l) * ((v : ℚ) - mean_with_stats l))).map
        (fun x => x / (l.length : ℚ)) := by
    rw [List.map_map]
    rfl
  rw [h, sum_map_div]

theorem variance_nonneg (l : List ℕ) : 0 ≤ (variance_and_mean l).1 := by
  rw [variance_and_mean_fst]
  apply div_nonneg _ (Nat.cast_nonneg _)
  apply List.sum_nonneg
  intro x hx
  simp only [List.mem_map] at hx
  obtain ⟨v, _, rfl⟩ := hx
  exact mul_self_nonneg _

theorem mean_replicate (k m : ℕ) (hk : k ≠ 0) :
    mean_with_stats (List.replicate k m) = m := by
  rw [mean_with_stats_eq]
  rw [List.map_replicate, List.sum_replicate, List.length_replicate, nsmul_eq_mul]
  exact mul_div_cancel_left₀ _ (Nat.cast_ne_zero.mpr hk)

theorem variance_replicate (k m : ℕ) : (variance_and_mean (List.replicate k m)).1 = 0 := by
  rcases Nat.eq_zero_or_pos k with rfl | hk
  · rfl
  · rw [variance_and_mean_fst, mean_replicate k m (by omega)]
    rw [List.map_replicate]
    simp

theorem length_intervalsFrom (last : ℤ) (ts : List ℤ) :
    (intervalsFrom last ts).length = ts.length := by
  induction ts generalizing last with
  | nil => rfl
  | cons t ts ih => simp [intervalsFrom, ih]

theorem intervalsFrom_eq_zipWith (t0 : ℤ) (ts : List ℤ)
    (h : List.Chain (fun a b => a < b ∧ b - a < 2 ^ 64) t0 ts) :
    intervalsFrom t0 ts = List.zipWith (fun a b => (b - a).toNat) (t0 :: ts) ts := by
  induction ts generalizing t0 with
  | nil => rfl
  | cons t ts ih =>
    rw [List.chain_cons] at h
    show Statistics.intervalOf t0 t :: intervalsFrom t ts = _
    rw [List.zipWith_cons_cons, ih t h.2]
    congr 1
    unfold Statistics.intervalOf
    have hb : (2 : ℤ) ^ 64 = 18446744073709551616 := by norm_num
    rw [Int.emod_eq_of_lt (by omega) (by rw [hb] at h ⊢; omega)]

theorem bootstrap_eq (wl : ℕ) (init t0 : ℤ) :
    (Statistics.new wl init).insert t0 =
      some { arrival_intervals := []
             last_arrived_at := t0
             window_length := wl
             n := 1 } := rfl

theorem gauss_continuous : Continuous fun t : ℝ => Real.exp (-t ^ 2) :=
  Real.continuous_exp.comp (continuous_pow 2).neg

theorem gauss_intervalIntegrable (a b : ℝ) :
    IntervalIntegrable (fun t : ℝ => Real.exp (-t ^ 2)) MeasureTheory.volume a b :=
  gauss_continuous.intervalIntegrable a b

theorem gauss_integrableOn_Ioi :
    MeasureTheory.IntegrableOn (fun t : ℝ => Real.exp (-t ^ 2)) (Set.Ioi 0) := by
  have h := (integrable_exp_neg_mul_sq (b := 1) one_pos).integrableOn (s := Set.Ioi 0)
  simpa using h

theorem integral_gauss_Ioi :
    ∫ t in Set.Ioi (0 : ℝ), Real.exp (-t ^ 2) = Real.sqrt Real.pi / 2 := by
  have h := integral_gaussian_Ioi 1
  simpa using h

theorem gauss_interval_nonneg (a b : ℝ) (h : a ≤ b) :
    0 ≤ ∫ t in a..b, Real.exp (-t ^ 2) :=
  intervalIntegral.integral_nonneg h fun _ _ => (Real.exp_pos _).le

theorem erf_monotone : Monotone erf := by
  intro x y hxy
  have hsplit := intervalIntegral.integral_add_adjacent_intervals
    (gauss_intervalIntegrable 0 x) (gauss_intervalIntegrable x y)
  have hnn := gauss_interval_nonneg x y hxy
  unfold erf
  have hc : 0 ≤ 2 / Real.sqrt Real.pi := by positivity
  apply mul_le_mul_of_nonneg_left _ hc
  linarith

theorem gauss_interval_le_half (x : ℝ) :
    ∫ t in (0:ℝ)..x, Real.exp (-t ^ 2) ≤ Real.sqrt Real.pi / 2 := by
  rcases le_or_lt x 0 with hx | hx
  · have h1 : ∫ t in (0:ℝ)..x, Real.exp (-t ^ 2) =
        -∫ t in x..(0:ℝ), Real.exp (-t ^ 2) := (intervalIntegral.integral_symm x 0)
    have h2 := gauss_interval_nonneg x 0 hx
    have h3 : 0 < Real.sqrt Real.pi := Real.sqrt_pos.mpr Real.pi_pos
    rw [h1]
    linarith
  · rw [intervalIntegral.integral_of_le hx.le, ← integral_gauss_Ioi]
    apply MeasureTheory.setIntegral_mono_set gauss_integrableOn_Ioi
    · filter_upwards with t using (Real.exp_pos _).le
    · exact (Set.Ioc_subset_Ioi_self).eventuallyLE

theorem erf_le_one (x : ℝ) : erf x ≤ 1 := by
  have h := gauss_interval_le_half x
  have hs : 0 < Real.sqrt Real.pi := Real.sqrt_pos.mpr Real.pi_pos
  unfold erf
  rw [div_mul_eq_mul_div, mul_comm, div_le_one hs]
  nlinarith

theorem erf_neg_eq (x : ℝ) : erf (-x) = -erf x := by
  unfold erf
  have h1 : ∫ t in (0:ℝ)..x, Real.exp (-t ^ 2) =
      ∫ t in (0:ℝ)..x, (fun u : ℝ => Real.exp (-u ^ 2)) (-t) := by
    apply intervalIntegral.integral_congr
    intro t _
    simp [neg_sq]
  have h2 := intervalIntegral.integral_comp_neg (a := (0:ℝ)) (b := x)
    (fun u : ℝ => Real.exp (-u ^ 2))
  have h3 : ∫ t in (-x)..(-(0:ℝ)), Real.exp (-t ^ 2) =
      -∫ t in (-(0:ℝ))..(-x), Real.exp (-t ^ 2) :=
    intervalIntegral.integral_symm _ _
  rw [h1, h2, h3]
  rw [neg_zero]
  ring

theorem neg_one_le_erf (x : ℝ) : -1 ≤ erf x := by
  have h := erf_le_one (-x)
  rw [erf_neg_eq] at h
  linarith

theorem normal_cdf_nonneg (t mu sigma : ℝ) : 0 ≤ normal_cdf t mu sigma := by
  unfold normal_cdf
  split
  · split <;> norm_num
  · have h := neg_one_le_erf ((t - mu) / sigma)
    norm_num
    linarith

theorem normal_cdf_le_one (t mu sigma : ℝ) : normal_cdf t mu sigma ≤ 1 := by
  unfold normal_cdf
  split
  · split <;> norm_num
  · have h := erf_le_one ((t - mu) / sigma)
    norm_num
    linarith

/-- C7: after exactly one `insert` on a freshly constructed `Statistics`, the
window is empty, the mean and the variance are both `0` (the empty window
never divides by zero), `n = 1`, `last_arrived_at` is the inserted timestamp,
and no interval was recorded. -/
theorem C7_bootstrap_insert (wl : ℕ) (t0 t : ℤ) :
    ∃ s', (Statistics.new wl t0).insert t = some s' ∧
      s'.arrival_intervals = [] ∧
      s'.n = 1 ∧
      s'.last_arrived_at = t ∧
      variance_and_mean s'.arrival_intervals = (0, 0) :=
  ⟨_, bootstrap_eq wl t0 t, rfl, rfl, rfl, rfl⟩

/-- C2 (counterexample): with `window_length = 0`, the second `insert` is not
error-free as the claim states: it calls `Vec::remove(0)` on the empty window
and panics (modelled as `none`). -/
theorem C2_counterexample :
    Statistics.runInserts (Statistics.new 0 0) [1, 2] = none := by decide

/-- C2 (amended): with `window_length = 0` the bootstrap insert succeeds and
leaves the window empty, but every subsequent insert reaches the eviction
branch with an empty window and panics; the configuration is an error in
practice, not a silently degenerate one. -/
theorem C2_zero_window_panics (t0 t1 t2 : ℤ) :
    ∃ s1, (Statistics.new 0 t0).insert t1 = some s1 ∧
      s1.arrival_intervals = [] ∧
      s1.insert t2 = none := by
  refine ⟨_, bootstrap_eq 0 t0 t1, rfl, ?_⟩
  exact Statistics.insert_panics _ t2 one_ne_zero rfl rfl

/-- C8 (counterexample): for an out-of-order arrival the recorded interval is
not the magnitude of the difference: inserting `5` then `0` stores
`2^64 - 5 = 18446744073709551611`, not `5`. -/
theorem C8_counterexample :
    (Statistics.runInserts (Statistics.new 1 0) [5, 0]).map Statistics.arrival_intervals =
      some [18446744073709551611] ∧ (18446744073709551611 : ℕ) ≠ 5 := by
  constructor
  · decide
  · decide

/-- C8 (amended): every non-bootstrap successful insert appends
`(arrived_at − last_arrived_at) mod 2^64` (the `i64` millisecond difference
reinterpreted as `u64`).  This is the difference itself when
`0 ≤ diff < 2^64`, and `2^64 + diff` — not the magnitude `|diff|` — when
`−2^64 < diff < 0`; in either case the stored value is `≥ 0`. -/
theorem C8_recorded_interval (s : Statistics) (t : ℤ) (s' : Statistics)
    (hn0 : s.n ≠ 0) (hinv : s.n = s.arrival_intervals.length + 1)
    (h : s.insert t = some s') :
    s'.arrival_intervals.getLast? = some (Statistics.intervalOf s.last_arrived_at t) ∧
    (Statistics.intervalOf s.last_arrived_at t : ℤ) = (t - s.last_arrived_at) % 2 ^ 64 ∧
    (0 ≤ t - s.last_arrived_at → t - s.last_arrived_at < 2 ^ 64 →
      (Statistics.intervalOf s.last_arrived_at t : ℤ) = t - s.last_arrived_at) ∧
    (t - s.last_arrived_at < 0 → -(2 ^ 64) < t - s.last_arrived_at →
      (Statistics.intervalOf s.last_arrived_at t : ℤ) = 2 ^ 64 + (t - s.last_arrived_at)) := by
  have hmod : (Statistics.intervalOf s.last_arrived_at t : ℤ) =
      (t - s.last_arrived_at) % 2 ^ 64 := by
    unfold Statistics.intervalOf
    rw [Int.toNat_of_nonneg]
    exact Int.emod_nonneg _ (by norm_num)
  refine ⟨?_, hmod, ?_, ?_⟩
  · by_cases hc : s.n - 1 = s.window_length
    · cases hI : s.arrival_intervals with
      | nil =>
        rw [Statistics.insert_panics s t hn0 hc hI] at h
        exact absurd h (by simp)
      | cons a rest =>
        have hn1 : s.n ≠ 1 := by
          rw [hI] at hinv
          simp at hinv
          omega
        rw [Statistics.insert_evict s t a rest hn0 hc hI hn1] at h
        obtain rfl := Option.some.inj h
        exact List.getLast?_concat _
    · rw [Statistics.insert_no_evict s t hn0 hc] at h
      obtain rfl := Option.some.inj h
      exact List.getLast?_concat _
  · intro h0 h1
    rw [hmod, Int.emod_eq_of_lt h0 h1]
  · intro h0 h1
    rw [hmod]
    rw [← Int.add_mul_emod_self_left (a := t - s.last_arrived_at) (b := 2 ^ 64) (c := 1)]
    have h2 : t - s.last_arrived_at + 2 ^ 64 * 1 = t - s.last_arrived_at + 2 ^ 64 := by ring
    rw [h2, Int.emod_eq_of_lt (by omega) (by omega)]
    ring

/-- C10: the bookkeeping invariant of `Statistics`: if `n = 0` the window is
empty, and otherwise `n` is exactly one more than the number of stored
intervals; both facts are preserved by every successful `insert`. -/
theorem C10_n_invariant (s : Statistics) (t : ℤ) (s' : Statistics)
    (h1 : s.n = 0 → s.arrival_intervals = [])
    (h2 : s.n ≠ 0 → s.n = s.arrival_intervals.length + 1)
    (h : s.insert t = some s') :
    (s'.n = 0 → s'.arrival_intervals = []) ∧
    (s'.n ≠ 0 → s'.n = s'.arrival_intervals.length + 1) := by
  by_cases hn0 : s.n = 0
  · rw [Statistics.insert, if_pos hn0] at h
    obtain rfl := Option.some.inj h
    refine ⟨?_, ?_⟩
    · intro h0
      simp [hn0] at h0
    · intro _
      show s.n + 1 = s.arrival_intervals.length + 1
      rw [h1 hn0, hn0]
      rfl
  · have hn := h2 hn0
    by_cases hc : s.n - 1 = s.window_length
    · cases hI : s.arrival_intervals with
      | nil =>
        rw [Statistics.insert_panics s t hn0 hc hI] at h
        exact absurd h (by simp)
      | cons a rest =>
        have hn1 : s.n ≠ 1 := by
          rw [hI] at hn
          simp at hn
          omega
        rw [Statistics.insert_evict s t a rest hn0 hc hI hn1] at h
        obtain rfl := Option.some.inj h
        refine ⟨fun h0 => by simp at h0, fun _ => ?_⟩
        show s.n - 1 + 1 = (rest ++ [_]).length + 1
        rw [hI] at hn
        simp at hn ⊢
        omega
    · rw [Statistics.insert_no_evict s t hn0 hc] at h
      obtain rfl := Option.some.inj h
      refine ⟨fun h0 => by simp at h0, fun _ => ?_⟩
      show s.n + 1 = (s.arrival_intervals ++ [_]).length + 1
      simp
      omega

/-- Witness for C10 at a concrete state: inserting at time `7` into the
post-bootstrap state `⟨[], 3, 2, 1⟩` yields `⟨[4], 7, 2, 2⟩`, which satisfies
the invariant. -/
theorem C10_n_invariant_witness :
    (((⟨[4], 7, 2, 2⟩ : Statistics).n = 0 → (⟨[4], 7, 2, 2⟩ : Statistics).arrival_intervals = []) ∧
    ((⟨[4], 7, 2, 2⟩ : Statistics).n ≠ 0 →
      (⟨[4], 7, 2, 2⟩ : Statistics).n = (⟨[4], 7, 2, 2⟩ : Statistics).arrival_intervals.length + 1)) :=
  C10_n_invariant ⟨[], 3, 2, 1⟩ 7 ⟨[4], 7, 2, 2⟩ (by decide) (by decide) (by decide)

/-- Witness for C8 at a concrete out-of-order insert: state `⟨[7], 3, 5, 2⟩`,
arrival at time `1` (two milliseconds before the last arrival). -/
theorem C8_recorded_interval_witness :
    ((⟨[7, 18446744073709551614], 1, 5, 3⟩ : Statistics).arrival_intervals.getLast? =
      some (Statistics.intervalOf 3 1)) ∧
    ((Statistics.intervalOf 3 1 : ℤ) = (1 - 3) % 2 ^ 64) ∧
    (0 ≤ (1 : ℤ) - 3 → (1 : ℤ) - 3 < 2 ^ 64 →
      (Statistics.intervalOf 3 1 : ℤ) = 1 - 3) ∧
    ((1 : ℤ) - 3 < 0 → -(2 ^ 64) < (1 : ℤ) - 3 →
      (Statistics.intervalOf 3 1 : ℤ) = 2 ^ 64 + (1 - 3)) :=
  C8_recorded_interval ⟨[7], 3, 5, 2⟩ 1 ⟨[7, 18446744073709551614], 1, 5, 3⟩
    (by decide) (by decide) (by decide)

/-- C3: starting from a fresh `Statistics` with `window_length = wl ≥ 1` and
inserting `k = 1 + ts.length > wl` strictly increasing timestamps, the final
window holds exactly `wl` intervals — the `wl` most recent inter-arrival
differences, in chronological order; moreover on every well-formed state the
eviction fires exactly when `n - 1 = window_length`, removing the oldest
interval and decrementing `n` before the new interval is appended. -/
theorem C3_window_bound (wl : ℕ) (init t0 : ℤ) (ts : List ℤ)
    (hwl : 1 ≤ wl) (hk : wl ≤ ts.length)
    (hchain : List.Chain (fun a b : ℤ => a < b ∧ b - a < 2 ^ 64) t0 ts) :
    (∃ s', Statistics.runInserts (Statistics.new wl init) (t0 :: ts) = some s' ∧
      s'.arrival_intervals =
        lastN wl (List.zipWith (fun a b : ℤ => (b - a).toNat) (t0 :: ts) ts) ∧
      s'.arrival_intervals.length = wl) ∧
    (∀ (u : Statistics) (τ : ℤ), u.n = u.arrival_intervals.length + 1 →
      u.arrival_intervals.length ≤ u.window_length → 1 ≤ u.window_length →
      u.insert τ = some
        { arrival_intervals :=
            (if u.n - 1 = u.window_length then u.arrival_intervals.tail
             else u.arrival_intervals) ++ [Statistics.intervalOf u.last_arrived_at τ]
          last_arrived_at := τ
          window_length := u.window_length
          n := (if u.n - 1 = u.window_length then u.n - 1 else u.n) + 1 }) := by
  constructor
  · obtain ⟨s', hrun, hw', hn', hD', hl'⟩ :=
      runInserts_window wl hwl ts ⟨[], t0, wl, 1⟩ [] rfl rfl (by simp [lastN])
    refine ⟨s', ?_, ?_, ?_⟩
    · rw [Statistics.runInserts_cons, bootstrap_eq wl init t0]
      simp only [Option.bind]
      exact hrun
    · rw [hD']
      show lastN wl ([] ++ intervalsFrom t0 ts) = _
      rw [List.nil_append, intervalsFrom_eq_zipWith t0 ts hchain]
    · rw [hD']
      show (lastN wl ([] ++ intervalsFrom t0 ts)).length = wl
      rw [List.nil_append, length_lastN, length_intervalsFrom]
      omega
  · intro u τ hn hlen hwl'
    by_cases hc : u.n - 1 = u.window_length
    · have hfull : u.arrival_intervals.length = u.window_length := by omega
      obtain ⟨a, rest, hI⟩ : ∃ a rest, u.arrival_intervals = a :: rest := by
        cases hI : u.arrival_intervals with
        | nil =>
          rw [hI] at hfull
          simp at hfull
          omega
        | cons a rest => exact ⟨a, rest, rfl⟩
      rw [Statistics.insert_evict u τ a rest (by omega) hc hI (by
        rw [hI] at hn
        simp at hn
        omega)]
      rw [if_pos hc, if_pos hc, hI]
      rfl
    · rw [Statistics.insert_no_evict u τ (by omega) hc, if_neg hc, if_neg hc]

/-- Witness for C3: window length `1`, timestamps `0, 1, 2`; the final window
is `lastN 1 [1, 1] = [1]`. -/
theorem C3_window_bound_witness :
    (∃ s', Statistics.runInserts (Statistics.new 1 0) ((0:ℤ) :: [1, 2]) = some s' ∧
      s'.arrival_intervals =
        lastN 1 (List.zipWith (fun a b : ℤ => (b - a).toNat) ((0:ℤ) :: [1, 2]) [1, 2]) ∧
      s'.arrival_intervals.length = 1) ∧
    (∀ (u : Statistics) (τ : ℤ), u.n = u.arrival_intervals.length + 1 →
      u.arrival_intervals.length ≤ u.window_length → 1 ≤ u.window_length →
      u.insert τ = some
        { arrival_intervals :=
            (if u.n - 1 = u.window_length then u.arrival_intervals.tail
             else u.arrival_intervals) ++ [Statistics.intervalOf u.last_arrived_at τ]
          last_arrived_at := τ
          window_length := u.window_length
          n := (if u.n - 1 = u.window_length then u.n - 1 else u.n) + 1 }) :=
  C3_window_bound 1 0 0 [1, 2] (by norm_num) (by norm_num)
    (by norm_num [List.chain_cons])

/-- C6: `variance_and_mean` computes exactly the spec's arithmetic mean and
population variance (denominator `len`, not `len − 1`), and on the concrete
scenario of 12 inserts with the listed deltas into a window of length 10 it
returns mean `8537/5 = 1707.4` and variance `93894791/25 = 3755791.64`
(so both round to the expected two-decimal values). -/
theorem C6_population_variance :
    (∀ l : List ℕ, variance_and_mean l = (variance_spec l, mean_spec l)) ∧
    (∃ s', Statistics.runInserts (Statistics.new 10 0)
        [0, 1630, 6051, 7565, 7781, 8012, 8943, 13125, 13227, 13331, 13572, 18704] =
          some s' ∧
      variance_and_mean s'.arrival_intervals = (93894791 / 25, 8537 / 5) ∧
      round ((93894791 / 25 : ℚ) * 100) = 375579164 ∧
      round ((8537 / 5 : ℚ) * 100) = 170740 ∧
      (375579164 / 100 : ℚ) = 3755791.64 ∧ (170740 / 100 : ℚ) = 1707.4) := by
  constructor
  · intro l
    have hm : mean_with_stats l = mean_spec l := mean_with_stats_eq l
    rw [Prod.ext_iff]
    constructor
    · rw [variance_and_mean_fst, hm]
      rfl
    · rw [variance_and_mean_snd, hm]
  · refine ⟨⟨[4421, 1514, 216, 231, 931, 4182, 102, 104, 241, 5132], 18704, 10, 11⟩,
      by decide, ?_, by norm_num [round_eq], by norm_num [round_eq], by norm_num, by norm_num⟩
    show variance_and_mean [4421, 1514, 216, 231, 931, 4182, 102, 104, 241, 5132] = _
    simp only [variance_and_mean, mean_with_stats, List.foldl_cons, List.foldl_nil,
      List.length_cons, List.length_nil, Prod.mk.injEq]
    norm_num

/-- Value of `phi` over a window of `k` identical intervals `m` (zero variance): `⊤`
exactly at the expected arrival instant `L + m`, and `0` everywhere else. -/
theorem phi_const_window (k m : ℕ) (L t : ℤ) (wl n : ℕ) (hk : k ≠ 0) :
    (t = L + (m : ℤ) →
      Detector.phi ⟨List.replicate k m, L, wl, n⟩ t = ⊤) ∧
    (t ≠ L + (m : ℤ) →
      Detector.phi ⟨List.replicate k m, L, wl, n⟩ t = 0) := by
  have hvar : (variance_and_mean (List.replicate k m)).1 = 0 := variance_replicate k m
  have hmean : (variance_and_mean (List.replicate k m)).2 = (m : ℚ) := by
    rw [variance_and_mean_snd, mean_replicate k m hk]
  constructor
  · intro ht
    have he : ((t - L : ℤ) : ℝ) = ((m : ℚ) : ℝ) := by
      push_cast
      rw [ht]
      push_cast
      ring
    show -(log10E (1 - normal_cdf (((t - L : ℤ) : ℝ))
        (((variance_and_mean (List.replicate k m)).2 : ℚ) : ℝ)
        (Real.sqrt (((variance_and_mean (List.replicate k m)).1 : ℚ) : ℝ)))) = ⊤
    rw [hvar, hmean, Rat.cast_zero, Real.sqrt_zero]
    unfold normal_cdf
    rw [if_pos rfl, if_pos he]
    norm_num [log10E]
  · intro ht
    have he : ((t - L : ℤ) : ℝ) ≠ ((m : ℚ) : ℝ) := by
      push_cast
      intro h
      apply ht
      have h2 : t - L = (m : ℤ) := by exact_mod_cast h
      omega
    show -(log10E (1 - normal_cdf (((t - L : ℤ) : ℝ))
        (((variance_and_mean (List.replicate k m)).2 : ℚ) : ℝ)
        (Real.sqrt (((variance_and_mean (List.replicate k m)).1 : ℚ) : ℝ)))) = 0
    rw [hvar, hmean, Rat.cast_zero, Real.sqrt_zero]
    unfold normal_cdf
    rw [if_pos rfl, if_neg he]
    norm_num [log10E]

/-- The value `-log10(1 - F)` is non-negative (possibly `⊤`) whenever `0 ≤ F ≤ 1`. -/
theorem neg_log10E_nonneg (F : ℝ) (h0 : 0 ≤ F) (h1 : F ≤ 1) :
    0 ≤ -(log10E (1 - F)) := by
  by_cases h : (1 : ℝ) - F = 0
  · rw [log10E, if_pos h]
    simp
  · rw [log10E, if_neg h]
    rw [show -((Real.logb 10 (1 - F) : ℝ) : EReal) = ((-Real.logb 10 (1 - F) : ℝ) : EReal)
      by norm_cast]
    rw [EReal.coe_nonneg]
    have hle := Real.logb_nonpos (by norm_num : (1:ℝ) < 10)
      (by linarith : (0:ℝ) ≤ 1 - F) (by linarith : (1:ℝ) - F ≤ 1)
    linarith

/-- C1 (counterexample): for the window of ten identical `10 ms` intervals
with last arrival at `100`, `phi` at `last + mean = 110` is `⊤` (not `0` as
the claim states), and `phi` at the other instant `120` is `0` (not
unbounded). -/
theorem C1_counterexample :
    Detector.phi ⟨List.replicate 10 10, 100, 10, 11⟩ 110 = ⊤ ∧
    (⊤ : EReal) ≠ 0 ∧
    Detector.phi ⟨List.replicate 10 10, 100, 10, 11⟩ 120 = 0 :=
  ⟨(phi_const_window 10 10 100 110 10 11 (by norm_num)).1 (by norm_num),
    by simp,
    (phi_const_window 10 10 100 120 10 11 (by norm_num)).2 (by norm_num)⟩

/-- C1 (amended): for a window of identical intervals `m` (zero variance)
with last arrival `L` and no intervening insert, `phi(L + m)` is `⊤`
(effectively unbounded), and `phi` at any other instant is `0`. -/
theorem C1_degenerate_distribution (k m : ℕ) (L t : ℤ) (wl n : ℕ) (hk : k ≠ 0) :
    (variance_and_mean (List.replicate k m)).1 = 0 ∧
    (t = L + (m : ℤ) →
      Detector.phi ⟨List.replicate k m, L, wl, n⟩ t = ⊤) ∧
    (t ≠ L + (m : ℤ) →
      Detector.phi ⟨List.replicate k m, L, wl, n⟩ t = 0) :=
  ⟨variance_replicate k m,
    (phi_const_window k m L t wl n hk).1,
    (phi_const_window k m L t wl n hk).2⟩

/-- Witness for C1 (amended) at `k = 1, m = 5, L = 0`: `phi` at `5` is `⊤`
and `phi` at `7` is `0`. -/
theorem C1_degenerate_distribution_witness :
    (variance_and_mean (List.replicate 1 5)).1 = 0 ∧
    Detector.phi ⟨List.replicate 1 5, 0, 1, 2⟩ 5 = ⊤ ∧
    Detector.phi ⟨List.replicate 1 5, 0, 1, 2⟩ 7 = 0 :=
  ⟨(C1_degenerate_distribution 1 5 0 5 1 2 (by norm_num)).1,
    (C1_degenerate_distribution 1 5 0 5 1 2 (by norm_num)).2.1 (by norm_num),
    (C1_degenerate_distribution 1 5 0 7 1 2 (by norm_num)).2.2 (by norm_num)⟩

/-- C4 (counterexample): monotonicity fails for a zero-variance window even
with both elapsed times at or beyond the mean: with mean `10` and last
arrival `100`, `phi(110) = ⊤ > phi(120) = 0` although `110 ≤ 120`. -/
theorem C4_counterexample :
    (variance_and_mean (List.replicate 10 10)).2 = 10 ∧
    (110 : ℤ) ≤ 120 ∧
    ¬(Detector.phi ⟨List.replicate 10 10, 100, 10, 11⟩ 110 ≤
      Detector.phi ⟨List.replicate 10 10, 100, 10, 11⟩ 120) := by
  refine ⟨?_, by norm_num, ?_⟩
  · rw [variance_and_mean_snd, mean_replicate 10 10 (by norm_num)]
    norm_num
  · rw [(phi_const_window 10 10 100 110 10 11 (by norm_num)).1 (by norm_num),
      (phi_const_window 10 10 100 120 10 11 (by norm_num)).2 (by norm_num)]
    simp

/-- C9: `phi` never returns a negative or non-numeric value: it is `≥ 0`
(possibly `⊤`); the variance passed to `sqrt` is never negative, and the CDF
value always lies in `[0, 1]`. -/
theorem C9_phi_nonneg (s : Statistics) (t : ℤ) :
    0 ≤ Detector.phi s t ∧
    0 ≤ (variance_and_mean s.arrival_intervals).1 ∧
    (∀ x mu sigma : ℝ, 0 ≤ normal_cdf x mu sigma ∧ normal_cdf x mu sigma ≤ 1) := by
  refine ⟨?_, variance_nonneg _,
    fun x mu sigma => ⟨normal_cdf_nonneg x mu sigma, normal_cdf_le_one x mu sigma⟩⟩
  unfold Detector.phi
  exact neg_log10E_nonneg _ (normal_cdf_nonneg _ _ _) (normal_cdf_le_one _ _ _)

/-- C5: the CDF used by `phi` is exactly the spec's formula — a point mass at
`mu` when `sigma = 0`, else `0.5 + 0.5·erf((x − mu)/sigma)` — and `phi`
computed from the fold-based mean/variance coincides with the spec's
`−log10(1 − F)` pipeline over `Σ`-based mean and population variance. -/
theorem C5_cdf_formula :
    (∀ x mu sigma : ℝ, normal_cdf x mu sigma = normal_cdf_spec x mu sigma) ∧
    (∀ x : ℝ, erf x = 2 / Real.sqrt Real.pi * ∫ u in (0:ℝ)..x, Real.exp (-u ^ 2)) ∧
    (∀ (s : Statistics) (t : ℤ), Detector.phi s t = phi_spec s t) := by
  refine ⟨fun _ _ _ => rfl, fun _ => rfl, fun s t => ?_⟩
  have hm : mean_with_stats s.arrival_intervals = mean_spec s.arrival_intervals :=
    mean_with_stats_eq s.arrival_intervals
  have h1 : (variance_and_mean s.arrival_intervals).1 = variance_spec s.arrival_intervals := by
    rw [variance_and_mean_fst, hm]
    rfl
  have h2 : (variance_and_mean s.arrival_intervals).2 = mean_spec s.arrival_intervals := by
    rw [variance_and_mean_snd, hm]
  unfold Detector.phi phi_spec
  rw [h1, h2]
  rfl

/-- The map `-log10(1 - x)` is monotone on CDF values `F1 ≤ F2 ≤ 1` (with value `⊤`
at `F = 1`). -/
theorem neg_log10E_mono (F1 F2 : ℝ) (h12 : F1 ≤ F2) (h2le : F2 ≤ 1) :
    -(log10E (1 - F1)) ≤ -(log10E (1 - F2)) := by
  by_cases hz : (1 : ℝ) - F2 = 0
  · simp only [log10E, if_pos hz]
    rw [EReal.neg_bot]
    exact le_top
  · have h2pos : 0 < 1 - F2 := lt_of_le_of_ne (by linarith) (Ne.symm hz)
    have h1pos : 0 < 1 - F1 := by linarith
    have h1ne : (1 : ℝ) - F1 ≠ 0 := ne_of_gt h1pos
    simp only [log10E, if_neg hz, if_neg h1ne]
    rw [show -((Real.logb 10 (1 - F1) : ℝ) : EReal) = ((-Real.logb 10 (1 - F1) : ℝ) : EReal)
        by norm_cast,
      show -((Real.logb 10 (1 - F2) : ℝ) : EReal) = ((-Real.logb 10 (1 - F2) : ℝ) : EReal)
        by norm_cast]
    rw [EReal.coe_le_coe_iff]
    have hll := Real.logb_le_logb_of_le (by norm_num : (1:ℝ) < 10) h2pos
      (by linarith : 1 - F2 ≤ 1 - F1)
    linarith

/-- C4 (amended): for a fixed window with nonzero variance, `phi` is
monotonically non-decreasing in the query time (for all query times, in
particular those at or beyond the mean), and `-log10(1 - F)` grows without
bound as `F → 1⁻`.  (For a zero-variance window the monotonicity claim fails,
see the counterexample.) -/
theorem C4_phi_monotone (s : Statistics) (t1 t2 : ℤ)
    (hvar : (variance_and_mean s.arrival_intervals).1 ≠ 0) (ht : t1 ≤ t2) :
    Detector.phi s t1 ≤ Detector.phi s t2 ∧
    Filter.Tendsto (fun x : ℝ => -Real.logb 10 (1 - x))
      (nhdsWithin (1 : ℝ) (Set.Iio 1)) Filter.atTop := by
  constructor
  · have hq : (0 : ℚ) < (variance_and_mean s.arrival_intervals).1 :=
      (variance_nonneg _).lt_of_ne (Ne.symm hvar)
    have hqR : (0 : ℝ) < (((variance_and_mean s.arrival_intervals).1 : ℚ) : ℝ) := by
      exact_mod_cast hq
    have hσ : 0 < Real.sqrt (((variance_and_mean s.arrival_intervals).1 : ℚ) : ℝ) :=
      Real.sqrt_pos.mpr hqR
    have hσne : Real.sqrt (((variance_and_mean s.arrival_intervals).1 : ℚ) : ℝ) ≠ 0 :=
      ne_of_gt hσ
    unfold Detector.phi
    apply neg_log10E_mono
    · simp only [normal_cdf, if_neg hσne]
      have hcast : ((t1 - s.last_arrived_at : ℤ) : ℝ) ≤ ((t2 - s.last_arrived_at : ℤ) : ℝ) := by
        exact_mod_cast (by omega : t1 - s.last_arrived_at ≤ t2 - s.last_arrived_at)
      have hz : (((t1 - s.last_arrived_at : ℤ) : ℝ) -
            ((variance_and_mean s.arrival_intervals).2 : ℚ)) /
            Real.sqrt (((variance_and_mean s.arrival_intervals).1 : ℚ) : ℝ) ≤
          (((t2 - s.last_arrived_at : ℤ) : ℝ) -
            ((variance_and_mean s.arrival_intervals).2 : ℚ)) /
            Real.sqrt (((variance_and_mean s.arrival_intervals).1 : ℚ) : ℝ) := by
        apply (div_le_div_iff_of_pos_right hσ).mpr
        linarith
      have herf := erf_monotone hz
      linarith
    · exact normal_cdf_le_one _ _ _
  · have hsub : Filter.Tendsto (fun x : ℝ => 1 - x)
        (nhdsWithin (1 : ℝ) (Set.Iio 1)) (nhdsWithin (0 : ℝ) (Set.Ioi 0)) := by
      rw [tendsto_nhdsWithin_iff]
      constructor
      · have hc : Filter.Tendsto (fun x : ℝ => 1 - x) (nhds 1) (nhds 0) := by
          have hc2 : Continuous (fun x : ℝ => 1 - x) := by continuity
          have hc3 := hc2.tendsto (1 : ℝ)
          simpa using hc3
        exact hc.mono_left nhdsWithin_le_nhds
      · filter_upwards [self_mem_nhdsWithin] with x hx
        simp only [Set.mem_Iio] at hx
        simp only [Set.mem_Ioi]
        linarith
    have hlogb : Filter.Tendsto (fun y : ℝ => Real.logb 10 y)
        (nhdsWithin (0 : ℝ) (Set.Ioi 0)) Filter.atBot := by
      have hpos : 0 < Real.log 10 := Real.log_pos (by norm_num)
      exact Real.tendsto_log_nhdsWithin_zero_right.atBot_div_const hpos
    have hcomp := hlogb.comp hsub
    have hneg := Filter.tendsto_neg_atBot_atTop.comp hcomp
    exact hneg

/-- Witness for C4 (amended) at the window `[0, 2]` (variance `1`), querying
at times `0 ≤ 1`. -/
theorem C4_phi_monotone_witness :
    Detector.phi ⟨[0, 2], 0, 2, 3⟩ 0 ≤ Detector.phi ⟨[0, 2], 0, 2, 3⟩ 1 ∧
    Filter.Tendsto (fun x : ℝ => -Real.logb 10 (1 - x))
      (nhdsWithin (1 : ℝ) (Set.Iio 1)) Filter.atTop :=
  C4_phi_monotone ⟨[0, 2], 0, 2, 3⟩ 0 1
    (by
      simp only [variance_and_mean, mean_with_stats, List.foldl_cons, List.foldl_nil,
        List.length_cons, List.length_nil]
      norm_num)
    (by norm_num)
